import Mathlib

/-!
Verification of the worker-pool validation pipeline and its container ADTs.

The development shallowly embeds:
* the generic FIFO container (`package queue`: `Queue`, `New`, `Add`, `Next`,
  `Peek`, `IsEmpty`),
* the generic LIFO container (`package stack`: `Stack`, `New`, `Push`, `Pop`,
  `Peek`, `IsEmpty`),
* the `worker` goroutine body from `main.go` (a loop over the items received
  from the input channel, sending one validator verdict per item), and
* the coordinator loop of `main` as a small-step transition system over
  rendezvous (capacity-zero) channels: sending an item pairs atomically with
  some idle worker's receive, and a busy worker's verdict send pairs with the
  coordinator's receive.

Go methods with pointer receivers are modelled by explicit state passing: a
method that mutates the receiver returns the new state alongside its results.
Go zero values are modelled by `Inhabited.default`.
-/

namespace PipelineModel

/-- FIFO container, embedding `type Queue[T any] struct { items []T }`. -/
structure Queue (T : Type) where
  items : List T

namespace Queue

/-- Embeds `func New[T any]() *Queue[T] { return &Queue[T]{} }`. -/
def New (T : Type) : Queue T := ⟨[]⟩

/-- Embeds `Add`: `q.items = append(q.items, item)`. -/
def Add (q : Queue T) (item : T) : Queue T := ⟨q.items ++ [item]⟩

/-- Embeds `Next`: if the queue is empty, return the zero value and `false`
without touching the state; otherwise return `q.items[0]` with `true` and keep
`q.items[1:]`. -/
def Next [Inhabited T] (q : Queue T) : (T × Bool) × Queue T :=
  match q.items with
  | [] => ((default, false), q)
  | item :: rest => ((item, true), ⟨rest⟩)

/-- Embeds `Peek`: same result as `Next` but the receiver is not mutated, so
the returned state is `q` itself. -/
def Peek [Inhabited T] (q : Queue T) : (T × Bool) × Queue T :=
  match q.items with
  | [] => ((default, false), q)
  | item :: _ => ((item, true), q)

/-- Embeds `IsEmpty`: `len(q.items) == 0`. -/
def IsEmpty (q : Queue T) : Bool := q.items.length == 0

/-- Adds a whole list of items in order, one `Add` per element. -/
def AddAll (q : Queue T) (xs : List T) : Queue T := xs.foldl Add q

/-- Drains the queue by the `IsEmpty`/`Next` loop the coordinator uses,
collecting the removed items in removal order. -/
def drain [Inhabited T] (q : Queue T) : List T :=
  if h : IsEmpty q then []
  else
    let r := Next q
    r.1.1 :: drain r.2
termination_by q.items.length
decreasing_by
  rcases q with ⟨items⟩
  cases items with
  | nil => simp [Queue.IsEmpty] at h
  | cons x rest => simp [Queue.Next]

end Queue

/-- LIFO container, embedding `type Stack[T any] struct { items []T }`. -/
structure Stack (T : Type) where
  items : List T

namespace Stack

/-- Embeds `func New[T any]() *Stack[T] { return &Stack[T]{} }`. -/
def New (T : Type) : Stack T := ⟨[]⟩

/-- Embeds `Push`: `s.items = append(s.items, item)`. -/
def Push (s : Stack T) (item : T) : Stack T := ⟨s.items ++ [item]⟩

/-- Embeds `Pop`: if the stack is empty, return the zero value and `false`
without touching the state; otherwise return `s.items[len(s.items)-1]` with
`true` and keep `s.items[:len(s.items)-1]`. The emptiness test is phrased via
`getLast?`, which is `none` exactly when `len(s.items) == 0`. -/
def Pop [Inhabited T] (s : Stack T) : (T × Bool) × Stack T :=
  match s.items.getLast? with
  | none => ((default, false), s)
  | some item => ((item, true), ⟨s.items.dropLast⟩)

/-- Embeds `Peek`: same result as `Pop` but the receiver is not mutated, so
the returned state is `s` itself. -/
def Peek [Inhabited T] (s : Stack T) : (T × Bool) × Stack T :=
  match s.items.getLast? with
  | none => ((default, false), s)
  | some item => ((item, true), s)

/-- Embeds `IsEmpty`: `len(s.items) == 0`. -/
def IsEmpty (s : Stack T) : Bool := s.items.length == 0

/-- Pushes a whole list of items in order, one `Push` per element. -/
def PushAll (s : Stack T) (xs : List T) : Stack T := xs.foldl Push s

/-- Drains the stack by the `IsEmpty`/`Pop` loop the coordinator uses,
collecting the removed items in removal order. -/
def drain [Inhabited T] (s : Stack T) : List T :=
  if h : IsEmpty s then []
  else
    let r := Pop s
    r.1.1 :: drain r.2
termination_by s.items.length
decreasing_by
  rcases s with ⟨items⟩
  rcases hq : items.getLast? with _ | x
  · rw [List.getLast?_eq_none_iff] at hq
    subst hq
    simp [Stack.IsEmpty] at h
  · have hne : items ≠ [] := by
      intro hh
      subst hh
      simp at hq
    have hpos : 0 < items.length := List.length_pos.mpr hne
    simp only [Stack.Pop, hq, List.length_dropLast]
    omega

end Stack

/-- Embeds the body of `func worker[T any](id int, in <-chan T, out chan<- bool,
validate func(T) bool)` from `main.go`, abstracting the channels: the argument
list is the sequence of items the worker receives from the input channel
before observing it closed, and the result is the sequence of verdicts the
worker sends on the output channel, in order. The `for item := range in` loop
sends `validate(item)` once per received item and stops (sending nothing
further) when the channel is closed and drained. The `id` parameter and the
`fmt.Printf` calls only produce diagnostics and are dropped. -/
def worker (validate : T → Bool) : List T → List Bool
  | [] => []
  | item :: rest => validate item :: worker validate rest

/-- Status of one worker goroutine: blocked receiving on the input channel
(`idle`), holding a computed verdict and blocked sending it on the output
channel (`busy`), or returned after observing the input channel closed
(`stopped`). -/
inductive WStatus where
  | idle : WStatus
  | busy : Bool → WStatus
  | stopped : WStatus
deriving DecidableEq

/-- Control point of the coordinator (the `main` goroutine's pipeline loop):
`looping st` is the `for !stack.IsEmpty()` loop head with current stack `st`
(about to test, pop and send), `waiting st` is the point after `ch_in <- item`
where it blocks on `<-ch_out`, and `closed` is the point after
`close(ch_in)`. -/
inductive CoState (T : Type) where
  | looping : Stack T → CoState T
  | waiting : Stack T → CoState T
  | closed : CoState T

/-- Global state of a pipeline run: the coordinator's control point, the pool
of worker statuses (index = spawn order), and the aggregate `num_valid`
counter, which only the coordinator touches. -/
structure PState (T : Type) where
  co : CoState T
  workers : List WStatus
  count : Nat

/-- Small-step semantics of the coordinator loop of `main` together with `W`
copies of `worker`, communicating over the two unbuffered channels. Because
the channels have capacity zero, a send pairs atomically with a matching
receive:

* `dispatch`: the loop guard sees a non-empty stack; the coordinator pops the
  top item and its send on `ch_in` pairs with the receive of some idle worker
  `i`, which then computes its verdict (`validate` is pure, so the computation
  is folded into the rendezvous);
* `collect`: worker `i`'s send of its verdict on `ch_out` pairs with the
  coordinator's receive, and the coordinator increments `num_valid` iff the
  verdict is `true`;
* `close`: the loop guard sees an empty stack; the coordinator closes `ch_in`;
* `wstop`: after the close, an idle worker's receive reports the channel
  closed and the worker returns.

The choice of `i` in `dispatch` and `collect` is the scheduling
nondeterminism: any idle worker may win the receive, and verdict collection
pairs with whichever busy worker the runtime picks. -/
inductive Step [Inhabited T] (validate : T → Bool) : PState T → PState T → Prop where
  | dispatch (st : Stack T) (ws : List WStatus) (c i : Nat)
      (hne : st.IsEmpty = false) (hw : ws[i]? = some WStatus.idle) :
      Step validate ⟨CoState.looping st, ws, c⟩
        ⟨CoState.waiting (st.Pop).2, ws.set i (WStatus.busy (validate (st.Pop).1.1)), c⟩
  | collect (st : Stack T) (ws : List WStatus) (c i : Nat) (b : Bool)
      (hw : ws[i]? = some (WStatus.busy b)) :
      Step validate ⟨CoState.waiting st, ws, c⟩
        ⟨CoState.looping st, ws.set i WStatus.idle, c + (if b then 1 else 0)⟩
  | close (st : Stack T) (ws : List WStatus) (c : Nat) (hemp : st.IsEmpty = true) :
      Step validate ⟨CoState.looping st, ws, c⟩ ⟨CoState.closed, ws, c⟩
  | wstop (ws : List WStatus) (c i : Nat) (hw : ws[i]? = some WStatus.idle) :
      Step validate ⟨CoState.closed, ws, c⟩ ⟨CoState.closed, ws.set i WStatus.stopped, c⟩

/-- Reachability: zero or more scheduler-chosen steps. -/
def Reach [Inhabited T] (validate : T → Bool) : PState T → PState T → Prop :=
  Relation.ReflTransGen (Step validate)

/-- Initial state of a run: the coordinator at the loop head with the populated
stack, `num_valid = 0`, and the workers spawned by
`for i := 1; i <= W; i++ { go worker(...) }`, all idle. A Go `int` worker
count `W ≤ 0` makes the loop spawn no workers at all, hence
`List.replicate W.toNat`. -/
def pipelineInit (st : Stack T) (W : Int) : PState T :=
  ⟨CoState.looping st, List.replicate W.toNat WStatus.idle, 0⟩

/-- Embeds `validate_int` from `main`: even numbers are valid (`n%2 == 0`). -/
def validate_int (n : Int) : Bool := n % 2 == 0

/-- The LIFO sequence of the concrete integer scenario: `5, 12, 19, 26`
pushed in that order onto a fresh stack. -/
def demoStack : Stack Int :=
  ((((Stack.New Int).Push 5).Push 12).Push 19).Push 26

/-- Proof-side predicate: no worker in the pool holds an unsent verdict. -/
def noBusy (ws : List WStatus) : Prop :=
  ∀ (j : Nat) (w : WStatus), ws[j]? = some w → w = WStatus.idle ∨ w = WStatus.stopped

/-- Proof-side predicate: exactly one worker holds the unsent verdict `b`,
and every other worker holds none. -/
def oneBusy (ws : List WStatus) (b : Bool) : Prop :=
  ∃ i : Nat, ws[i]? = some (WStatus.busy b) ∧
    ∀ (j : Nat) (w : WStatus), j ≠ i → ws[j]? = some w →
      w = WStatus.idle ∨ w = WStatus.stopped

/-- Run invariant, relative to the initial stack contents `items0`: the items
still in the stack are a prefix of `items0`, the counter equals the number of
valid items among those already fully processed (a suffix of `items0`), and
while the coordinator waits for a verdict, exactly one worker holds it and the
verdict is the validator's value on the item just sent. -/
def Inv [Inhabited T] (validate : T → Bool) (items0 : List T) : PState T → Prop
  | ⟨CoState.looping st, ws, c⟩ =>
      (∃ rest, items0 = st.items ++ rest ∧ c = rest.countP validate) ∧ noBusy ws
  | ⟨CoState.waiting st, ws, c⟩ =>
      ∃ x rest, items0 = st.items ++ x :: rest ∧ c = rest.countP validate ∧
        oneBusy ws (validate x)
  | ⟨CoState.closed, _, c⟩ => c = items0.countP validate

theorem Queue.drain_eq_items [Inhabited T] (l : List T) : Queue.drain ⟨l⟩ = l := by
  induction l with
  | nil => rw [Queue.drain]; simp [Queue.IsEmpty]
  | cons x rest ih => rw [Queue.drain]; simp [Queue.IsEmpty, Queue.Next, ih]

theorem Stack.drain_eq_reverse [Inhabited T] (l : List T) : Stack.drain ⟨l⟩ = l.reverse := by
  induction l using List.reverseRecOn with
  | nil => rw [Stack.drain]; simp [Stack.IsEmpty]
  | append_singleton l x ih =>
    rw [Stack.drain]
    simp [Stack.IsEmpty, Stack.Pop, List.getLast?_concat, List.dropLast_concat, ih]

theorem Queue.AddAll_mk (xs : List T) : ∀ l : List T, Queue.AddAll ⟨l⟩ xs = ⟨l ++ xs⟩ := by
  induction xs with
  | nil => intro l; simp [Queue.AddAll]
  | cons y ys ih =>
    intro l
    have h : Queue.AddAll (⟨l⟩ : Queue T) (y :: ys) = Queue.AddAll ⟨l ++ [y]⟩ ys := rfl
    rw [h, ih]
    simp

theorem Stack.PushAll_mk (xs : List T) : ∀ l : List T, Stack.PushAll ⟨l⟩ xs = ⟨l ++ xs⟩ := by
  induction xs with
  | nil => intro l; simp [Stack.PushAll]
  | cons y ys ih =>
    intro l
    have h : Stack.PushAll (⟨l⟩ : Stack T) (y :: ys) = Stack.PushAll ⟨l ++ [y]⟩ ys := rfl
    rw [h, ih]
    simp

/-- C2: after pushing the items `1, 2, …, k` in that order onto a fresh LIFO
sequence, draining it by repeated `Pop` yields the items in the order
`k, k-1, …, 1` (the reverse of the insertion order `List.range' 1 k`). -/
theorem lifo_drain_descending (k : Nat) :
    Stack.drain ((Stack.New Nat).PushAll (List.range' 1 k)) = (List.range' 1 k).reverse := by
  have h := Stack.PushAll_mk (List.range' 1 k) ([] : List Nat)
  simp only [List.nil_append] at h
  show Stack.drain (Stack.PushAll ⟨[]⟩ (List.range' 1 k)) = (List.range' 1 k).reverse
  rw [h, Stack.drain_eq_reverse]

/-- C3: after adding the items `1, 2, …, k` in that order to a fresh FIFO
sequence, draining it by repeated `Next` yields the items in insertion order
`1, 2, …, k`. -/
theorem fifo_drain_ascending (k : Nat) :
    Queue.drain ((Queue.New Nat).AddAll (List.range' 1 k)) = List.range' 1 k := by
  have h := Queue.AddAll_mk (List.range' 1 k) ([] : List Nat)
  simp only [List.nil_append] at h
  show Queue.drain (Queue.AddAll ⟨[]⟩ (List.range' 1 k)) = List.range' 1 k
  rw [h, Queue.drain_eq_items]

/-- C4: on an empty sequence of either discipline, `Next`/`Pop` and `Peek`
return `found = false` together with the type's zero value, leave the state
unchanged, and (being total functions) never raise a fault: the "not found"
result is a normal outcome. -/
theorem empty_remove_peek_not_found {T : Type} [Inhabited T] (q : Queue T) (s : Stack T)
    (hq : q.IsEmpty = true) (hs : s.IsEmpty = true) :
    q.Next = ((default, false), q) ∧ q.Peek = ((default, false), q) ∧
    s.Pop = ((default, false), s) ∧ s.Peek = ((default, false), s) := by
  rcases q with ⟨qi⟩
  rcases s with ⟨si⟩
  have hq2 : qi = [] := by simpa [Queue.IsEmpty] using hq
  have hs2 : si = [] := by simpa [Stack.IsEmpty] using hs
  subst hq2
  subst hs2
  exact ⟨rfl, rfl, rfl, rfl⟩

theorem empty_remove_peek_not_found_witness :
    (Queue.New Int).IsEmpty = true ∧ (Stack.New Int).IsEmpty = true ∧
    ((Queue.New Int).Next = ((default, false), Queue.New Int) ∧
     (Queue.New Int).Peek = ((default, false), Queue.New Int) ∧
     (Stack.New Int).Pop = ((default, false), Stack.New Int) ∧
     (Stack.New Int).Peek = ((default, false), Stack.New Int)) :=
  ⟨rfl, rfl, empty_remove_peek_not_found (Queue.New Int) (Stack.New Int) rfl rfl⟩

/-- C5: for every sequence state of either discipline, `Peek` returns exactly
the `(item, found)` pair that the destructive removal (`Next`/`Pop`) would
return on that state, and it leaves the state completely unchanged. -/
theorem peek_matches_remove_next {T : Type} [Inhabited T] (q : Queue T) (s : Stack T) :
    (q.Peek.1 = q.Next.1 ∧ q.Peek.2 = q) ∧ (s.Peek.1 = s.Pop.1 ∧ s.Peek.2 = s) := by
  rcases q with ⟨qi⟩
  rcases s with ⟨si⟩
  refine ⟨?_, ?_⟩
  · cases qi <;> exact ⟨rfl, rfl⟩
  · rcases h : si.getLast? with _ | x <;>
      simp [Stack.Peek, Stack.Pop, h]

theorem Stack.isEmpty_true_iff (s : Stack T) : s.IsEmpty = true ↔ s.items = [] := by
  simp [Stack.IsEmpty, List.length_eq_zero]

theorem Stack.isEmpty_false_iff (s : Stack T) : s.IsEmpty = false ↔ s.items ≠ [] := by
  rw [← Bool.not_eq_true, not_iff_not]
  exact Stack.isEmpty_true_iff s

theorem Stack.pop_of_ne_nil [Inhabited T] (s : Stack T) (h : s.items ≠ []) :
    s.Pop = ((s.items.getLast h, true), ⟨s.items.dropLast⟩) := by
  simp [Stack.Pop, List.getLast?_eq_getLast s.items h]

theorem Stack.pop_concat [Inhabited T] (l : List T) (x : T) :
    (Stack.mk (l ++ [x])).Pop = ((x, true), ⟨l⟩) := by
  simp [Stack.Pop, List.getLast?_concat, List.dropLast_concat]

theorem noBusy_replicate (n : Nat) : noBusy (List.replicate n WStatus.idle) := by
  intro j w hj
  left
  rcases Nat.lt_or_ge j n with hlt | hge
  · rw [List.getElem?_replicate] at hj
    simp [hlt] at hj
    exact hj.symm
  · rw [List.getElem?_eq_none (by simpa using hge)] at hj
    cases hj

theorem noBusy_set_idle (ws : List WStatus) (i : Nat) (h : noBusy ws) :
    noBusy (ws.set i WStatus.idle) := by
  intro j w hj
  rcases eq_or_ne i j with rfl | hne
  · rcases Nat.lt_or_ge i ws.length with hlt | hge
    · rw [List.getElem?_set_eq_of_lt _ hlt] at hj
      left
      exact (Option.some_injective _ hj).symm
    · rw [List.set_eq_of_length_le hge] at hj
      exact h i w hj
  · rw [List.getElem?_set_ne hne] at hj
    exact h j w hj

theorem noBusy_set_stopped (ws : List WStatus) (i : Nat) (h : noBusy ws) :
    noBusy (ws.set i WStatus.stopped) := by
  intro j w hj
  rcases eq_or_ne i j with rfl | hne
  · rcases Nat.lt_or_ge i ws.length with hlt | hge
    · rw [List.getElem?_set_eq_of_lt _ hlt] at hj
      right
      exact (Option.some_injective _ hj).symm
    · rw [List.set_eq_of_length_le hge] at hj
      exact h i w hj
  · rw [List.getElem?_set_ne hne] at hj
    exact h j w hj

theorem oneBusy_set_busy (ws : List WStatus) (i : Nat) (b : Bool)
    (hw : ws[i]? = some WStatus.idle) (h : noBusy ws) :
    oneBusy (ws.set i (WStatus.busy b)) b := by
  have hi : i < ws.length := (List.getElem?_eq_some.mp hw).1
  refine ⟨i, List.getElem?_set_eq_of_lt _ hi, ?_⟩
  intro j w hj hjw
  rw [List.getElem?_set_ne (Ne.symm hj)] at hjw
  exact h j w hjw

theorem oneBusy_collect (ws : List WStatus) (i : Nat) (b b2 : Bool)
    (h : oneBusy ws b) (hw : ws[i]? = some (WStatus.busy b2)) :
    b2 = b ∧ noBusy (ws.set i WStatus.idle) := by
  obtain ⟨i0, hi0, hrest⟩ := h
  have hii : i = i0 := by
    by_contra hne
    rcases hrest i (WStatus.busy b2) hne hw with h1 | h1 <;> cases h1
  subst hii
  rw [hi0] at hw
  have hb : b = b2 := by
    have := Option.some_injective _ hw
    cases this
    rfl
  subst hb
  refine ⟨rfl, ?_⟩
  intro j w hj
  rcases eq_or_ne i j with rfl | hne
  · have hi : i < ws.length := (List.getElem?_eq_some.mp hi0).1
    rw [List.getElem?_set_eq_of_lt _ hi] at hj
    left
    exact (Option.some_injective _ hj).symm
  · rw [List.getElem?_set_ne hne] at hj
    exact hrest j w (Ne.symm hne) hj

/-- One scheduler step preserves the run invariant. -/
theorem step_preserves_inv [Inhabited T] (validate : T → Bool) (items0 : List T)
    (s t : PState T) (hs : Inv validate items0 s) (hst : Step validate s t) :
    Inv validate items0 t := by
  cases hst with
  | dispatch st ws c i hne hw =>
    obtain ⟨⟨rest, hitems, hc⟩, hnb⟩ := hs
    have hne2 : st.items ≠ [] := (Stack.isEmpty_false_iff st).mp hne
    rw [Stack.pop_of_ne_nil st hne2]
    refine ⟨st.items.getLast hne2, rest, ?_, hc, ?_⟩
    · rw [hitems]
      conv_lhs => rw [← List.dropLast_append_getLast hne2]
      simp
    · exact oneBusy_set_busy ws i _ hw hnb
  | collect st ws c i b hw =>
    obtain ⟨x, rest, hitems, hc, hob⟩ := hs
    obtain ⟨hb, hnb⟩ := oneBusy_collect ws i (validate x) b hob hw
    subst hb
    refine ⟨⟨x :: rest, hitems, ?_⟩, hnb⟩
    rw [List.countP_cons, hc]
  | close st ws c hemp =>
    obtain ⟨⟨rest, hitems, hc⟩, _⟩ := hs
    have hnil : st.items = [] := (Stack.isEmpty_true_iff st).mp hemp
    rw [hnil] at hitems
    simp only [List.nil_append] at hitems
    show c = items0.countP validate
    rw [hitems, hc]
  | wstop ws c i hw =>
    exact hs

/-- Every state reachable from the initial state satisfies the invariant. -/
theorem reach_inv [Inhabited T] (validate : T → Bool) (st : Stack T) (W : Int)
    (s : PState T) (h : Reach validate (pipelineInit st W) s) :
    Inv validate st.items s := by
  induction h with
  | refl =>
    exact ⟨⟨[], by simp, rfl⟩, noBusy_replicate _⟩
  | tail _ hstep ih =>
    exact step_preserves_inv validate st.items _ _ ih hstep

/-- Whatever the scheduling, when the coordinator has closed the input channel
the counter equals the number of valid items of the original stack. -/
theorem closed_count [Inhabited T] (validate : T → Bool) (st : Stack T) (W : Int)
    (s : PState T) (h : Reach validate (pipelineInit st W) s)
    (hco : s.co = CoState.closed) : s.count = st.items.countP validate := by
  have hinv := reach_inv validate st W s h
  rcases s with ⟨co, ws, c⟩
  cases hco
  exact hinv

/-- Canonical complete execution: always dispatching to and collecting from
worker 0 drives the run from the loop head to the closed state, adding the
number of valid stack items to the counter. -/
theorem run_completes [Inhabited T] (validate : T → Bool) (l : List T)
    (ws : List WStatus) :
    ∀ c : Nat, Reach validate ⟨CoState.looping ⟨l⟩, WStatus.idle :: ws, c⟩
      ⟨CoState.closed, WStatus.idle :: ws, l.countP validate + c⟩ := by
  induction l using List.reverseRecOn with
  | nil =>
    intro c
    have hstep : Step validate ⟨CoState.looping ⟨([] : List T)⟩, WStatus.idle :: ws, c⟩
        ⟨CoState.closed, WStatus.idle :: ws, c⟩ :=
      Step.close _ _ _ (by simp [Stack.IsEmpty])
    simpa using Relation.ReflTransGen.single hstep
  | append_singleton l x ih =>
    intro c
    have h1 : Step validate ⟨CoState.looping ⟨l ++ [x]⟩, WStatus.idle :: ws, c⟩
        ⟨CoState.waiting ⟨l⟩, WStatus.busy (validate x) :: ws, c⟩ := by
      have hd : Step validate ⟨CoState.looping ⟨l ++ [x]⟩, WStatus.idle :: ws, c⟩
          ⟨CoState.waiting ((Stack.mk (l ++ [x])).Pop).2,
            (WStatus.idle :: ws).set 0
              (WStatus.busy (validate ((Stack.mk (l ++ [x])).Pop).1.1)), c⟩ :=
        Step.dispatch ⟨l ++ [x]⟩ (WStatus.idle :: ws) c 0 (by simp [Stack.IsEmpty])
          (by simp)
      rwa [Stack.pop_concat] at hd
    have h2 : Step validate ⟨CoState.waiting ⟨l⟩, WStatus.busy (validate x) :: ws, c⟩
        ⟨CoState.looping ⟨l⟩, WStatus.idle :: ws, c + (if validate x then 1 else 0)⟩ :=
      Step.collect _ _ _ 0 (validate x) (by simp)
    have h3 := ih (c + (if validate x then 1 else 0))
    have hcount : l.countP validate + (c + (if validate x then 1 else 0)) =
        (l ++ [x]).countP validate + c := by
      rw [List.countP_append]
      simp [List.countP_cons]
      omega
    rw [hcount] at h3
    exact (Relation.ReflTransGen.head h1 (Relation.ReflTransGen.head h2 h3))

/-- C1: for every stack of items, every validator and every worker count
`W ≥ 1`, the aggregate returned by the pipeline equals the number of items the
validator accepts — under every possible scheduling of the workers (first
conjunct quantifies over all reachable completed states), and at least one
scheduling completes the run (second conjunct). -/
theorem pipeline_count_correct_and_deterministic {T : Type} [Inhabited T]
    (validate : T → Bool) (st : Stack T) (W : Int) (hW : 1 ≤ W) :
    (∀ s, Reach validate (pipelineInit st W) s → s.co = CoState.closed →
      s.count = st.items.countP validate) ∧
    (∃ s, Reach validate (pipelineInit st W) s ∧ s.co = CoState.closed ∧
      s.count = st.items.countP validate) := by
  refine ⟨fun s h hc => closed_count validate st W s h hc, ?_⟩
  rcases st with ⟨l⟩
  have hrep : List.replicate W.toNat WStatus.idle =
      WStatus.idle :: List.replicate (W.toNat - 1) WStatus.idle := by
    have h1 : W.toNat = (W.toNat - 1) + 1 := by omega
    rw [h1, List.replicate_succ]
    simp
  refine ⟨⟨CoState.closed, WStatus.idle :: List.replicate (W.toNat - 1) WStatus.idle,
    l.countP validate + 0⟩, ?_, rfl, by simp⟩
  show Reach validate
    ⟨CoState.looping ⟨l⟩, List.replicate W.toNat WStatus.idle, 0⟩ _
  rw [hrep]
  exact run_completes validate l (List.replicate (W.toNat - 1) WStatus.idle) 0

theorem pipeline_count_correct_and_deterministic_witness :
    (1 : Int) ≤ 2 ∧
    ((∀ s, Reach validate_int (pipelineInit ⟨[3, 4]⟩ 2) s → s.co = CoState.closed →
        s.count = List.countP validate_int [3, 4]) ∧
     (∃ s, Reach validate_int (pipelineInit ⟨[3, 4]⟩ 2) s ∧ s.co = CoState.closed ∧
        s.count = List.countP validate_int [3, 4])) :=
  ⟨by decide, pipeline_count_correct_and_deterministic validate_int ⟨[3, 4]⟩ 2 (by decide)⟩

/-- C6: with an empty input sequence and any worker count, the drain loop body
never executes (no reachable state has the coordinator waiting for a verdict),
the very first step of any schedule is the close of the input channel, and the
aggregate count is 0 in every reachable state. -/
theorem pipeline_empty_input {T : Type} [Inhabited T] (validate : T → Bool) (W : Int) :
    (∀ s, Reach validate (pipelineInit (⟨[]⟩ : Stack T) W) s →
      s.count = 0 ∧ ∀ st2 : Stack T, s.co ≠ CoState.waiting st2) ∧
    (∀ s, Step validate (pipelineInit (⟨[]⟩ : Stack T) W) s →
      s = ⟨CoState.closed, List.replicate W.toNat WStatus.idle, 0⟩) := by
  constructor
  · intro s h
    have key : s.count = 0 ∧
        (s.co = CoState.looping ⟨[]⟩ ∨ s.co = CoState.closed) := by
      induction h with
      | refl => exact ⟨rfl, Or.inl rfl⟩
      | tail hab hstep ih =>
        obtain ⟨hc, hco⟩ := ih
        cases hstep with
        | dispatch st2 ws c i hne hw =>
          rcases hco with hco | hco
          · have : st2 = (⟨[]⟩ : Stack T) := by
              cases hco
              rfl
            subst this
            simp [Stack.IsEmpty] at hne
          · cases hco
        | collect st2 ws c i b hw =>
          rcases hco with hco | hco <;> cases hco
        | close st2 ws c hemp => exact ⟨hc, Or.inr rfl⟩
        | wstop ws c i hw => exact ⟨hc, Or.inr rfl⟩
    obtain ⟨h1, h2⟩ := key
    refine ⟨h1, ?_⟩
    intro st2 heq
    rcases h2 with h2 | h2 <;> rw [heq] at h2 <;> cases h2
  · intro s hstep
    have hstep2 : Step validate
        ⟨CoState.looping ⟨[]⟩, List.replicate W.toNat WStatus.idle, 0⟩ s := hstep
    cases hstep2 with
    | dispatch st2 ws c i hne hw => simp [Stack.IsEmpty] at hne
    | close st2 ws c hemp => rfl

theorem pipeline_empty_input_witness :
    (pipelineInit (⟨[]⟩ : Stack Int) 3).count = 0 ∧
    ∀ st2 : Stack Int, (pipelineInit (⟨[]⟩ : Stack Int) 3).co ≠ CoState.waiting st2 :=
  (pipeline_empty_input validate_int 3).1 _ Relation.ReflTransGen.refl

theorem no_step_zero_workers {T : Type} [Inhabited T] (validate : T → Bool)
    (st : Stack T) (c : Nat) (hne : st.IsEmpty = false) (s : PState T) :
    ¬ Step validate ⟨CoState.looping st, [], c⟩ s := by
  intro h
  cases h with
  | dispatch st2 ws c2 i hne2 hw => simp at hw
  | close st2 ws c2 hemp => rw [hemp] at hne; cases hne

theorem reach_fixed_of_no_step {T : Type} [Inhabited T] (validate : T → Bool)
    (init s : PState T) (hns : ∀ t, ¬ Step validate init t)
    (h : Reach validate init s) : s = init := by
  induction h with
  | refl => rfl
  | tail hab hstep ih => exact absurd (ih ▸ hstep) (hns _)

/-- C7 counterexample: with `worker_count = 0` and the one-item stack `[5]`,
the coordinator does not reject the configuration — it spawns zero workers and
enters the drain loop, where the first send can never pair with a receive: no
step at all is possible from the initial state (deadlock), and no run ever
reaches the channel-close. This contradicts the claim that the coordinator
rejects `worker_count ≤ 0` up front rather than proceeding and deadlocking. -/
theorem misconfig_not_rejected_cex :
    (pipelineInit (⟨[5]⟩ : Stack Int) 0).workers = [] ∧
    ¬ (∃ s, Step validate_int (pipelineInit (⟨[5]⟩ : Stack Int) 0) s) ∧
    ¬ (∃ s, Reach validate_int (pipelineInit (⟨[5]⟩ : Stack Int) 0) s ∧
        s.co = CoState.closed) := by
  have hns : ∀ t, ¬ Step validate_int (pipelineInit (⟨[5]⟩ : Stack Int) 0) t := by
    intro t
    exact no_step_zero_workers validate_int ⟨[5]⟩ 0 rfl t
  refine ⟨rfl, ?_, ?_⟩
  · rintro ⟨s, hs⟩
    exact hns s hs
  · rintro ⟨s, hr, hco⟩
    have heq := reach_fixed_of_no_step validate_int _ s hns hr
    rw [heq] at hco
    cases hco

/-- C7 amended: the coordinator performs no validation of the worker count.
For every `worker_count ≤ 0` the spawn loop starts zero workers, and on a
non-empty sequence the run then proceeds into the drain loop and deadlocks on
the first send: no step is possible, the initial state is the only reachable
state, and the input channel is never closed (the run never completes). -/
theorem misconfig_spawns_no_workers_and_deadlocks {T : Type} [Inhabited T]
    (validate : T → Bool) (st : Stack T) (W : Int) (hW : W ≤ 0)
    (hne : st.IsEmpty = false) :
    (pipelineInit st W).workers = [] ∧
    (∀ s, ¬ Step validate (pipelineInit st W) s) ∧
    (∀ s, Reach validate (pipelineInit st W) s → s = pipelineInit st W) ∧
    ¬ (∃ s, Reach validate (pipelineInit st W) s ∧ s.co = CoState.closed) := by
  have hz : W.toNat = 0 := Int.toNat_of_nonpos hW
  have hinit : pipelineInit st W = ⟨CoState.looping st, [], 0⟩ := by
    simp [pipelineInit, hz]
  have hns : ∀ t, ¬ Step validate (pipelineInit st W) t := by
    intro t
    rw [hinit]
    exact no_step_zero_workers validate st 0 hne t
  refine ⟨by rw [hinit], hns, fun s h => reach_fixed_of_no_step validate _ s hns h, ?_⟩
  rintro ⟨s, hr, hco⟩
  have heq := reach_fixed_of_no_step validate _ s hns hr
  rw [heq, hinit] at hco
  cases hco

theorem misconfig_spawns_no_workers_and_deadlocks_witness :
    (0 : Int) ≤ 0 ∧ (⟨[5]⟩ : Stack Int).IsEmpty = false ∧
    ((pipelineInit (⟨[5]⟩ : Stack Int) 0).workers = [] ∧
     (∀ s, ¬ Step validate_int (pipelineInit (⟨[5]⟩ : Stack Int) 0) s) ∧
     (∀ s, Reach validate_int (pipelineInit (⟨[5]⟩ : Stack Int) 0) s →
        s = pipelineInit (⟨[5]⟩ : Stack Int) 0) ∧
     ¬ (∃ s, Reach validate_int (pipelineInit (⟨[5]⟩ : Stack Int) 0) s ∧
        s.co = CoState.closed)) :=
  ⟨by decide, rfl,
    misconfig_spawns_no_workers_and_deadlocks validate_int ⟨[5]⟩ 0 (by decide) rfl⟩

/-- C8: running the pipeline on the LIFO sequence populated in push order with
`5, 12, 19, 26`, with the evenness validator and worker count 3, returns the
count 2: every completed schedule reports 2, and a completing schedule
exists. -/
theorem demo_int_scenario :
    (∀ s, Reach validate_int (pipelineInit demoStack 3) s → s.co = CoState.closed →
      s.count = 2) ∧
    (∃ s, Reach validate_int (pipelineInit demoStack 3) s ∧ s.co = CoState.closed ∧
      s.count = 2) := by
  constructor
  · intro s h hco
    have hcc := closed_count validate_int demoStack 3 s h hco
    rw [hcc]
    rfl
  · refine ⟨⟨CoState.closed, WStatus.idle :: List.replicate 2 WStatus.idle,
      List.countP validate_int [5, 12, 19, 26] + 0⟩, ?_, rfl, by rfl⟩
    exact run_completes validate_int [5, 12, 19, 26] (List.replicate 2 WStatus.idle) 0

theorem demo_int_scenario_witness :
    (⟨CoState.closed, WStatus.idle :: List.replicate 2 WStatus.idle,
      List.countP validate_int [5, 12, 19, 26] + 0⟩ : PState Int).count = 2 :=
  demo_int_scenario.1 _
    (run_completes validate_int [5, 12, 19, 26] (List.replicate 2 WStatus.idle) 0) rfl

/-- C9: the worker sends exactly one verdict per item received — the verdict
stream has the same length as the item stream (1:1 correspondence), the i-th
verdict is the validator applied to the i-th received item, and on a closed
and drained channel the worker sends nothing further. -/
theorem worker_one_verdict_per_item {T : Type} (validate : T → Bool)
    (received : List T) :
    (worker validate received).length = received.length ∧
    (∀ i : Nat, (worker validate received)[i]? = (received[i]?).map validate) ∧
    worker validate ([] : List T) = [] := by
  refine ⟨?_, ?_, rfl⟩
  · induction received with
    | nil => rfl
    | cons x rest ih => simp [worker, ih]
  · intro i
    induction received generalizing i with
    | nil => simp [worker]
    | cons x rest ih =>
      cases i with
      | zero => simp [worker]
      | succ n => simp [worker, ih]

/-- C10: inserting an item `x` into an empty sequence of either discipline and
then removing it returns `(x, true)` and leaves the sequence empty again. -/
theorem insert_remove_round_trip {T : Type} [Inhabited T] (x : T) :
    ((Queue.New T).Add x).Next = ((x, true), Queue.New T) ∧
    (((Queue.New T).Add x).Next.2.IsEmpty = true) ∧
    ((Stack.New T).Push x).Pop = ((x, true), Stack.New T) ∧
    (((Stack.New T).Push x).Pop.2.IsEmpty = true) := by
  refine ⟨rfl, rfl, ?_, ?_⟩ <;>
    simp [Stack.New, Stack.Push, Stack.Pop, Stack.IsEmpty]

end PipelineModel
